import Mathlib

/-!
Shallow embedding of the pairwise alignment core of the repository
(`src/biotite/sequence/align/pairwise.pyx`).

Scores are modelled as unbounded `Int`.  The C code computes on 32-bit
signed integers; for inputs within the sentinel bounds analysed in the
`negInfVal` theorems below no 32-bit operation wraps, so the `Int` model
agrees with the machine arithmetic there.  Dynamic-programming tables are
rendered as recursive functions on the cell coordinates: the imperative
row-major loop writes each cell once, reading only the final values of the
three already-written neighbours, which is exactly the recurrence used here.
-/

namespace Biotite

/-- A coded sequence: an alphabet identifier (alphabets live outside this
core and are compared by identity / coverage) plus the integer codes. -/
structure Seq where
  alphabet : Nat
  code : List Nat
deriving DecidableEq, Repr

/-- A substitution matrix: the two alphabet identifiers and the 2-D score
table returned by `score_matrix()`. -/
structure SubstMatrix where
  alph1 : Nat
  alph2 : Nat
  scores : List (List Int)
deriving DecidableEq, Repr

/-- `matrix[a, b]` lookup. -/
def matScore (m : SubstMatrix) (a b : Nat) : Int :=
  (m.scores.getD a []).getD b 0

/-- All entries of a raw score table (row-major). -/
def matEntries (s : List (List Int)) : List Int :=
  s.foldr (fun r acc => r ++ acc) []

/-- `np.min(matrix.score_matrix())`; 0 for an empty table (unused case). -/
def matMin (s : List (List Int)) : Int :=
  match matEntries s with
  | [] => 0
  | h :: t => t.foldl min h

/-- Maximum entry of the score table; 0 for an empty table. -/
def matMax (s : List (List Int)) : Int :=
  match matEntries s with
  | [] => 0
  | h :: t => t.foldl max h

/-- The error taxonomy of the spec: `LengthMismatch`, `AlphabetMismatch`,
`InvalidGapPenalty` (the code raises `ValueError` / `TypeError`). -/
inductive AlignError where
  | lengthMismatch
  | alphabetMismatch
  | invalidGapPenalty
deriving DecidableEq, Repr

/-- The public `Alignment` object: sequence pair, index-pair trace
(gap = `-1`) and score. -/
structure Alignment where
  seqs : List Seq
  trace : List (Int × Int)
  score : Int
deriving DecidableEq, Repr

/-- Result of `align_ungapped`: a bare score or a full alignment. -/
inductive UngappedResult where
  | score (s : Int)
  | alignment (a : Alignment)
deriving DecidableEq, Repr

/-- The dynamically typed `gap_penalty` argument of `align_optimal`:
a Python `int`, a pair (`tuple`), or anything else. -/
inductive GapPenaltyArg where
  | int (g : Int)
  | tuple (a b : Int)
  | other
deriving DecidableEq, Repr

/-! ## Ungapped scorer (`align_ungapped`, `_add_scores`) -/

/-- `_add_scores`: `for i in range(len): score += matrix[code1[i], code2[i]]`. -/
def addScores (code1 code2 : List Nat) (m : SubstMatrix) : Int :=
  (List.range code1.length).foldl
    (fun acc i => acc + matScore m (code1.getD i 0) (code2.getD i 0)) 0

/-- `align_ungapped`.  The length check comes first; the alphabet check uses
`and` exactly as the source does (`matrix.get_alphabet1() != ... and
matrix.get_alphabet2() != ...`). -/
def align_ungapped (seq1 seq2 : Seq) (m : SubstMatrix) (scoreOnly : Bool) :
    Except AlignError UngappedResult :=
  if seq1.code.length ≠ seq2.code.length then
    .error .lengthMismatch
  else if m.alph1 ≠ seq1.alphabet ∧ m.alph2 ≠ seq2.alphabet then
    .error .alphabetMismatch
  else
    let score := addScores seq1.code seq2.code m
    if scoreOnly then
      .ok (.score score)
    else
      -- trivial trace [[0 0], [1 1], [2 2], ...]
      .ok (.alignment
        { seqs := [seq1, seq2]
          trace := (List.range seq1.code.length).map fun i => ((i : Int), (i : Int))
          score := score })

/-! ## Table filler, general gap penalty (`_fill_align_table`) -/

/-- The three-way maximum / trace selection of `_fill_align_table`
(lines 405-426), reproduced branch by branch.  Note the `(6, d)` case:
when `from_diag < from_left = from_top` the source stores `from_diag`. -/
def generalMax3 (d l t : Int) : Nat × Int :=
  if d > l then
    (if d > t then (1, d) else if d = t then (5, d) else (4, t))
  else if d = l then
    (if d > t then (3, d) else if d = t then (7, d) else (4, t))
  else
    (if l > t then (2, l) else if l = t then (6, d) else (4, t))

/-- Left/top gap candidate: the penalty is omitted iff `terminal_penalty`
is false and the cell lies on the last row/column (`not term_penalty and
i == i_max`); the branch does not consult `local`. -/
def gapCand (term : Bool) (i iMax : Nat) (prev g : Int) : Int :=
  if ¬term ∧ i = iMax then prev else prev + g

/-- One row (index `i ≥ 1`) of the general-penalty score table, given the
previous row: column 0 is the boundary, column `j+1` follows the loop body
of `_fill_align_table` (diagonal from `prev j`, left from the cell just
computed, top from `prev (j+1)`), with the local clamp.  This is the
row-major write order of the source loop. -/
def genSRowStep (c1 c2 : List Nat) (m : SubstMatrix) (g : Int)
    (term loc : Bool) (prev : Nat → Int) (i : Nat) : Nat → Int
  | 0 => if ¬loc ∧ term then (i : Int) * g else 0
  | j + 1 =>
    let d := prev j + matScore m (c1.getD (i - 1) 0) (c2.getD j 0)
    let l := gapCand term i c1.length
      (genSRowStep c1 c2 m g term loc prev i j) g
    let t := gapCand term (j + 1) c2.length (prev (j + 1)) g
    let sc := (generalMax3 d l t).2
    if loc ∧ sc ≤ 0 then 0 else sc

/-- Rows of the general-penalty score table (`score_table`): row 0 is the
initialisation (multiples of the penalty exactly in global-terminal mode),
row `i+1` is filled from row `i`. -/
def genSRow (c1 c2 : List Nat) (m : SubstMatrix) (g : Int) (term loc : Bool) :
    Nat → Nat → Int
  | 0 => fun j => if ¬loc ∧ term then (j : Int) * g else 0
  | i + 1 => genSRowStep c1 c2 m g term loc
      (genSRow c1 c2 m g term loc i) (i + 1)

/-- The general-penalty score table as a cell function. -/
def genS (c1 c2 : List Nat) (m : SubstMatrix) (g : Int) (term loc : Bool)
    (i j : Nat) : Int :=
  genSRow c1 c2 m g term loc i j

/-- The general-penalty trace table (`trace_table`): boundary marks
(2 left / 4 top) in global mode, zero in local mode; interior cells store
the selected bitmask, left at 0 (its initial value) when the local clamp
fires. -/
def genT (c1 c2 : List Nat) (m : SubstMatrix) (g : Int) (term loc : Bool)
    (i j : Nat) : Nat :=
  match i, j with
  | 0, 0 => 0
  | 0, _ + 1 => if loc then 0 else 2
  | _ + 1, 0 => if loc then 0 else 4
  | i + 1, j + 1 =>
    let d := genS c1 c2 m g term loc i j + matScore m (c1.getD i 0) (c2.getD j 0)
    let l := gapCand term (i + 1) c1.length (genS c1 c2 m g term loc (i + 1) j) g
    let t := gapCand term (j + 1) c2.length (genS c1 c2 m g term loc i (j + 1)) g
    let (tr, sc) := generalMax3 d l t
    if loc ∧ sc ≤ 0 then 0 else tr

/-! ## Table filler, affine gap penalty (`_fill_align_table_affine`) -/

/-- `neg_inf = np.iinfo(np.int32).min - 2*gap_open - 2*gap_ext`, further
reduced by `min_score` when that minimum is negative. -/
def negInfVal (go ge : Int) (scores : List (List Int)) : Int :=
  let v := -2147483648 - 2 * go - 2 * ge
  if matMin scores < 0 then v - matMin scores else v

/-- The two-way selection for the `g1` table (bits 8/16/24): ties keep
`mg1`. -/
def g1Sel (mg1 g1g1 : Int) : Nat × Int :=
  if mg1 > g1g1 then (8, mg1) else if mg1 < g1g1 then (16, g1g1) else (24, mg1)

/-- The two-way selection for the `g2` table (bits 32/64/96): ties keep
`g2g2`. -/
def g2Sel (mg2 g2g2 : Int) : Nat × Int :=
  if mg2 > g2g2 then (32, mg2) else if mg2 < g2g2 then (64, g2g2) else (96, g2g2)

/-- One row (index `i ≥ 1`) of the three affine score tables, given the
previous row, as triples `(m, g1, g2)`: column 0 is the sentinel boundary,
column `j+1` follows the loop body of `_fill_align_table_affine` with the
per-state local clamp. -/
def affRowStep (c1 c2 : List Nat) (m : SubstMatrix) (go ge : Int)
    (term loc : Bool) (prev : Nat → Int × Int × Int) (i : Nat) :
    Nat → Int × Int × Int
  | 0 =>
    (negInfVal go ge m.scores,
     negInfVal go ge m.scores,
     if ¬loc ∧ term then ((i : Int) - 1) * ge + go else 0)
  | j + 1 =>
    let dv := prev j
    let lv := affRowStep c1 c2 m go ge term loc prev i j
    let tv := prev (j + 1)
    let sim := matScore m (c1.getD (i - 1) 0) (c2.getD j 0)
    let mSel := generalMax3 (dv.1 + sim) (dv.2.1 + sim) (dv.2.2 + sim)
    let g1a := if ¬term ∧ i = c1.length then (lv.1, lv.2.1)
               else (lv.1 + go, lv.2.1 + ge)
    let g1s := g1Sel g1a.1 g1a.2
    let g2a := if ¬term ∧ j + 1 = c2.length then (tv.1, tv.2.2)
               else (tv.1 + go, tv.2.2 + ge)
    let g2s := g2Sel g2a.1 g2a.2
    if loc then
      ((if mSel.2 ≤ 0 then 0 else mSel.2),
       (if g1s.2 ≤ 0 then 0 else g1s.2),
       (if g2s.2 ≤ 0 then 0 else g2s.2))
    else
      (mSel.2, g1s.2, g2s.2)

/-- Rows of the affine tables: row 0 is the `neg_inf` / penalty
initialisation of `align_optimal`, row `i+1` is filled from row `i`. -/
def affRow (c1 c2 : List Nat) (m : SubstMatrix) (go ge : Int)
    (term loc : Bool) : Nat → Nat → Int × Int × Int
  | 0 => fun j =>
    match j with
    | 0 => (0, negInfVal go ge m.scores, negInfVal go ge m.scores)
    | j + 1 =>
      (negInfVal go ge m.scores,
       if ¬loc ∧ term then (j : Int) * ge + go else 0,
       negInfVal go ge m.scores)
  | i + 1 => affRowStep c1 c2 m go ge term loc
      (affRow c1 c2 m go ge term loc i) (i + 1)

/-- The three affine score tables (`m_table`, `g1_table`, `g2_table`) as one
cell function to a triple. -/
def affS (c1 c2 : List Nat) (m : SubstMatrix) (go ge : Int) (term loc : Bool)
    (i j : Nat) : Int × Int × Int :=
  affRow c1 c2 m go ge term loc i j

/-- The affine trace table: boundary marks 16/64 in global mode, the packed
byte `m-bits ||| g1-bits ||| g2-bits` in the interior, with each group
cleared when its state clamps in local mode (`trace &= ~7` etc.). -/
def affT (c1 c2 : List Nat) (m : SubstMatrix) (go ge : Int) (term loc : Bool)
    (i j : Nat) : Nat :=
  match i, j with
  | 0, 0 => 0
  | 0, _ + 1 => if loc then 0 else 16
  | _ + 1, 0 => if loc then 0 else 64
  | i + 1, j + 1 =>
    let dv := affS c1 c2 m go ge term loc i j
    let lv := affS c1 c2 m go ge term loc (i + 1) j
    let tv := affS c1 c2 m go ge term loc i (j + 1)
    let sim := matScore m (c1.getD i 0) (c2.getD j 0)
    let mSel := generalMax3 (dv.1 + sim) (dv.2.1 + sim) (dv.2.2 + sim)
    let g1a := if ¬term ∧ i + 1 = c1.length then (lv.1, lv.2.1)
               else (lv.1 + go, lv.2.1 + ge)
    let g1s := g1Sel g1a.1 g1a.2
    let g2a := if ¬term ∧ j + 1 = c2.length then (tv.1, tv.2.2)
               else (tv.1 + go, tv.2.2 + ge)
    let g2s := g2Sel g2a.1 g2a.2
    let tr := mSel.1 ||| g1s.1 ||| g2s.1
    if loc then
      -- `trace &= ~7`, `trace &= ~24`, `trace &= ~96` on a uint8:
      -- the complements are 248, 231 and 159
      let tr1 := if mSel.2 ≤ 0 then tr &&& 248 else tr
      let tr2 := if g1s.2 ≤ 0 then tr1 &&& 231 else tr1
      if g2s.2 ≤ 0 then tr2 &&& 159 else tr2
    else tr

/-- Decidable equality for `Except` results (not provided by core). -/
instance {ε α : Type} [DecidableEq ε] [DecidableEq α] :
    DecidableEq (Except ε α) := fun x y =>
  match x, y with
  | .ok a, .ok b =>
    if h : a = b then isTrue (by rw [h])
    else isFalse (by intro hh; cases hh; exact h rfl)
  | .error a, .error b =>
    if h : a = b then isTrue (by rw [h])
    else isFalse (by intro hh; cases hh; exact h rfl)
  | .ok _, .error _ => isFalse (by intro hh; cases hh)
  | .error _, .ok _ => isFalse (by intro hh; cases hh)

/-! ## Traceback engine (`_follow_trace`) and `align_optimal` -/

/-- Loop break condition of `_follow_trace`: the trace bits relevant to the
current state are all zero (state 0 = general table, 1/2/3 = m/g1/g2). -/
def tbStop (tt : Int → Int → Nat) (i j : Int) (st : Nat) : Bool :=
  if st = 0 then tt i j == 0
  else if st = 1 then tt i j &&& 7 == 0
  else if st = 2 then tt i j &&& 24 == 0
  else tt i j &&& 96 == 0

/-- The `(next_indices, next_states)` pairs collected by one iteration of
`_follow_trace`, in source order. -/
def tbSteps (tt : Int → Int → Nat) (i j : Int) (st : Nat) :
    List (Int × Int × Nat) :=
  if st = 0 then
    let v := tt i j
    (if v &&& 1 ≠ 0 then [(i - 1, j - 1, 0)] else []) ++
    (if v &&& 2 ≠ 0 then [(i, j - 1, 0)] else []) ++
    (if v &&& 4 ≠ 0 then [(i - 1, j, 0)] else [])
  else
    let v := if st = 1 then tt i j &&& 7
             else if st = 2 then tt i j &&& 24
             else tt i j &&& 96
    (if v &&& 1 ≠ 0 then [(i - 1, j - 1, 1)] else []) ++
    (if v &&& 2 ≠ 0 then [(i - 1, j - 1, 2)] else []) ++
    (if v &&& 4 ≠ 0 then [(i - 1, j - 1, 3)] else []) ++
    (if v &&& 8 ≠ 0 then [(i, j - 1, 1)] else []) ++
    (if v &&& 16 ≠ 0 then [(i, j - 1, 2)] else []) ++
    (if v &&& 32 ≠ 0 then [(i - 1, j, 1)] else []) ++
    (if v &&& 64 ≠ 0 then [(i - 1, j, 3)] else [])

/-- `_follow_trace`.  `acc` is the written prefix of the `trace` array; each
extra branch recurses on a copy first, then the loop continues with the
first branch; a finished path is appended to the output.  The source loop
terminates because every step decreases `i + j`; `fuel` (instantiated with
`i + j + 1` by the caller) makes that explicit. -/
def followTrace (tt : Int → Int → Nat) :
    Nat → Int → Int → Nat → List (Int × Int) → List (List (Int × Int))
  | 0, _, _, _, acc => [acc]
  | fuel + 1, i, j, st, acc =>
    if tbStop tt i j st then [acc]
    else
      let acc2 := acc ++ [(i - 1, j - 1)]
      match tbSteps tt i j st with
      | [] => [acc2]
      | s0 :: rest =>
        ((rest.map fun s => followTrace tt fuel s.1 s.2.1 s.2.2 acc2).flatten) ++
        followTrace tt fuel s0.1 s0.2.1 s0.2.2 acc2

/-- The gap replacement after traceback: only the first occurrence of every
index value in each column survives; every other entry becomes `-1`
(`np.unique(..., return_index=True)` marks first occurrences). -/
def gapFilterAux : List Int → List Int → List (Int × Int) → List (Int × Int)
  | _, _, [] => []
  | seen1, seen2, (a, b) :: rest =>
    ((if a ∈ seen1 then -1 else a), (if b ∈ seen2 then -1 else b)) ::
    gapFilterAux (a :: seen1) (b :: seen2) rest

/-- All cells of an (n1+1)×(n2+1) table in row-major (`np.where`) order. -/
def cellList (n1 n2 : Nat) : List (Nat × Nat) :=
  ((List.range (n1 + 1)).map fun i =>
    (List.range (n2 + 1)).map fun j => (i, j)).flatten

/-- Maximum of `f` over a cell list (`np.max`); tables are nonempty. -/
def maxOver (f : Nat × Nat → Int) (l : List (Nat × Nat)) : Int :=
  match l with
  | [] => 0
  | h :: t => t.foldl (fun acc p => max acc (f p)) (f h)

/-- `align_optimal`.  Checks the alphabets, then the penalty argument type
(no sign check in the source), fills the tables, selects the start cells
and follows every trace.  `Alphabet.extends` lives outside `src/`;
modelled from the spec: the matrix alphabet extends a sequence's alphabet
iff it covers at least its code range (alphabets are identified with their
code ranges). -/
def align_optimal (seq1 seq2 : Seq) (m : SubstMatrix) (gp : GapPenaltyArg)
    (term loc : Bool) : Except AlignError (List Alignment) :=
  if ¬(seq1.alphabet ≤ m.alph1) ∨ ¬(seq2.alphabet ≤ m.alph2) then
    .error .alphabetMismatch
  else
    match gp with
    | .other => .error .invalidGapPenalty
    | .int g =>
      let c1 := seq1.code
      let c2 := seq2.code
      let n1 := c1.length
      let n2 := c2.length
      let S := genS c1 c2 m g term loc
      let T := genT c1 c2 m g term loc
      let tt : Int → Int → Nat := fun i j =>
        if 0 ≤ i ∧ 0 ≤ j then T i.toNat j.toNat else 0
      let mx : Int := if loc then maxOver (fun p => S p.1 p.2) (cellList n1 n2)
                      else S n1 n2
      let starts : List (Nat × Nat × Nat) :=
        if loc then
          ((cellList n1 n2).filter fun p => S p.1 p.2 == mx).map
            fun p => (p.1, p.2, 0)
        else [(n1, n2, 0)]
      let traces := (starts.map fun s =>
        followTrace tt (s.1 + s.2.1 + 1) (s.1 : Int) (s.2.1 : Int) s.2.2 []).flatten
      .ok (traces.map fun tr =>
        { seqs := [seq1, seq2]
          trace := gapFilterAux [] [] tr.reverse
          score := mx })
    | .tuple go ge =>
      let c1 := seq1.code
      let c2 := seq2.code
      let n1 := c1.length
      let n2 := c2.length
      let A := affS c1 c2 m go ge term loc
      let T := affT c1 c2 m go ge term loc
      let tt : Int → Int → Nat := fun i j =>
        if 0 ≤ i ∧ 0 ≤ j then T i.toNat j.toNat else 0
      let mx : Int :=
        if loc then
          maxOver (fun p => max (A p.1 p.2).1
            (max (A p.1 p.2).2.1 (A p.1 p.2).2.2)) (cellList n1 n2)
        else max (A n1 n2).1 (max (A n1 n2).2.1 (A n1 n2).2.2)
      let starts : List (Nat × Nat × Nat) :=
        if loc then
          (((cellList n1 n2).filter fun p => (A p.1 p.2).1 == mx).map
            fun p => (p.1, p.2, 1)) ++
          (((cellList n1 n2).filter fun p => (A p.1 p.2).2.1 == mx).map
            fun p => (p.1, p.2, 2)) ++
          (((cellList n1 n2).filter fun p => (A p.1 p.2).2.2 == mx).map
            fun p => (p.1, p.2, 3))
        else
          (if (A n1 n2).1 == mx then [(n1, n2, 1)] else []) ++
          (if (A n1 n2).2.1 == mx then [(n1, n2, 2)] else []) ++
          (if (A n1 n2).2.2 == mx then [(n1, n2, 3)] else [])
      let traces := (starts.map fun s =>
        followTrace tt (s.1 + s.2.1 + 1) (s.1 : Int) (s.2.1 : Int) s.2.2 []).flatten
      .ok (traces.map fun tr =>
        { seqs := [seq1, seq2]
          trace := gapFilterAux [] [] tr.reverse
          score := mx })

/-! ## Brute-force reference for the optimal score -/

/-- Scores of the gaps-only alignments of a single remaining sequence
(every column is a gap costing `g`). -/
def gapOnlyScores (g : Int) : List Nat → List Int
  | [] => [0]
  | _ :: bs => (gapOnlyScores g bs).map (· + g)

/-- Helper for `bruteScores`: all alignment scores of `a :: as` against the
second list, given the scores for `as` against any second list. -/
def bruteAux (m : SubstMatrix) (g : Int) (prev : List Nat → List Int)
    (a : Nat) : List Nat → List Int
  | [] => (prev []).map (· + g)
  | b :: bs =>
    ((prev bs).map (· + matScore m a b)) ++
    ((prev (b :: bs)).map (· + g)) ++
    ((bruteAux m g prev a bs).map (· + g))

/-- Modelled from the spec: the brute-force reference for the "maximum
attainable score" of a global alignment with terminal gap penalties —
the scores of all alignments (each column a substitution or a gap of
cost `g`), to be maximised. -/
def bruteScores (m : SubstMatrix) (g : Int) : List Nat → List Nat → List Int
  | [] => gapOnlyScores g
  | a :: as => bruteAux m g (bruteScores m g as) a

/-- Maximum of a list of integers (0 for the empty list, unused). -/
def maxIntList : List Int → Int
  | [] => 0
  | h :: t => t.foldl max h

/-! ## Claims -/

/-! ## Traceback walk invariants (for C6) -/

/-- One backward step of `_follow_trace` between consecutively written
entries: each component stays or decreases by one, and not both stay. -/
def stepBack (p q : Int × Int) : Prop :=
  (q.1 = p.1 ∨ q.1 = p.1 - 1) ∧ (q.2 = p.2 ∨ q.2 = p.2 - 1) ∧
  ¬(q.1 = p.1 ∧ q.2 = p.2)

/-- The same relation read forward (after the flip of the trace). -/
def stepFwd (p q : Int × Int) : Prop :=
  (q.1 = p.1 ∨ q.1 = p.1 + 1) ∧ (q.2 = p.2 ∨ q.2 = p.2 + 1) ∧
  ¬(q.1 = p.1 ∧ q.2 = p.2)

/-- `consecFrom m l`: the list is `[m+1, m+2, ...]`. -/
def consecFrom (m : Int) : List Int → Prop
  | [] => True
  | h :: t => h = m + 1 ∧ consecFrom h t

/-- The spec's trace validity: within each column the non-gap entries are
consecutive increasing indices (so non-decreasing, each index consumed at
most once and advancing by exactly one), and every row consumes at least
one index (never both components gaps, so no step leaves both fixed). -/
def TraceProps (tr : List (Int × Int)) : Prop :=
  List.Chain' (fun x y => y = x + 1) ((tr.map Prod.fst).filter (· != -1)) ∧
  List.Chain' (fun x y => y = x + 1) ((tr.map Prod.snd).filter (· != -1)) ∧
  ∀ p ∈ tr, p.1 ≠ -1 ∨ p.2 ≠ -1

/-- Well-formedness of a trace table handed to `_follow_trace`, as
established by the fillers: cell (0,0) is untouched (0), the first
row/column carries only the boundary mark of its mode (2/4 for the general
table, 16/64 for the affine one), and general-mode cells fit in 3 bits. -/
def TableWF (affine : Bool) (tt : Int → Int → Nat) : Prop :=
  tt 0 0 = 0 ∧
  (∀ j : Int, tt 0 j = 0 ∨ tt 0 j = (if affine then 16 else 2)) ∧
  (∀ i : Int, tt i 0 = 0 ∨ tt i 0 = (if affine then 64 else 4)) ∧
  (affine = false → ∀ i j : Int, tt i j < 8)

/-- The interior cells of `genS` satisfy the cell recurrence of the source
loop: each cell is computed from its diagonal, left and top neighbours. -/
theorem genS_cell (c1 c2 : List Nat) (m : SubstMatrix) (g : Int)
    (term loc : Bool) (i j : Nat) :
    genS c1 c2 m g term loc (i + 1) (j + 1) =
      (let d := genS c1 c2 m g term loc i j +
        matScore m (c1.getD i 0) (c2.getD j 0)
      let l := gapCand term (i + 1) c1.length
        (genS c1 c2 m g term loc (i + 1) j) g
      let t := gapCand term (j + 1) c2.length
        (genS c1 c2 m g term loc i (j + 1)) g
      let sc := (generalMax3 d l t).2
      if loc ∧ sc ≤ 0 then 0 else sc) := rfl

/-- The interior cells of `affS` satisfy the cell recurrence of the source
loop. -/
theorem affS_cell (c1 c2 : List Nat) (m : SubstMatrix) (go ge : Int)
    (term loc : Bool) (i j : Nat) :
    affS c1 c2 m go ge term loc (i + 1) (j + 1) =
      (let dv := affS c1 c2 m go ge term loc i j
      let lv := affS c1 c2 m go ge term loc (i + 1) j
      let tv := affS c1 c2 m go ge term loc i (j + 1)
      let sim := matScore m (c1.getD i 0) (c2.getD j 0)
      let mSel := generalMax3 (dv.1 + sim) (dv.2.1 + sim) (dv.2.2 + sim)
      let g1a := if ¬term ∧ i + 1 = c1.length then (lv.1, lv.2.1)
                 else (lv.1 + go, lv.2.1 + ge)
      let g1s := g1Sel g1a.1 g1a.2
      let g2a := if ¬term ∧ j + 1 = c2.length then (tv.1, tv.2.2)
                 else (tv.1 + go, tv.2.2 + ge)
      let g2s := g2Sel g2a.1 g2a.2
      if loc then
        ((if mSel.2 ≤ 0 then 0 else mSel.2),
         (if g1s.2 ≤ 0 then 0 else g1s.2),
         (if g2s.2 ≤ 0 then 0 else g2s.2))
      else
        (mSel.2, g1s.2, g2s.2)) := rfl

/-- C1: the claim says the stored score equals the maximum of the three
candidates in every tie case.  The code refutes it: in the branch
`from_diag < from_left = from_top` the filler stores `from_diag`
(`trace, score = 6, from_diag`).  Concretely: for sequences `[0]`/`[0]`
with score matrix `[[-5]]` and general penalty −1 (global, terminal
penalties) the candidates at cell (1,1) are (−5, −2, −2) with maximum −2,
yet the table stores −5; in the affine filler the match-state cell (3,3)
of the displayed instance stores 7 although its three incoming candidates
are (7, 17, 17) with maximum 17. -/
theorem fill_table_tie_stores_nonmaximum :
    generalMax3 (-5) (-2) (-2) = (6, -5) ∧
    genS [0] [0] ⟨1, 1, [[-5]]⟩ (-1) true false 1 1 = -5 ∧
    max (genS [0] [0] ⟨1, 1, [[-5]]⟩ (-1) true false 0 0 +
          matScore ⟨1, 1, [[-5]]⟩ 0 0)
      (max (gapCand true 1 1 (genS [0] [0] ⟨1, 1, [[-5]]⟩ (-1) true false 1 0) (-1))
           (gapCand true 1 1 (genS [0] [0] ⟨1, 1, [[-5]]⟩ (-1) true false 0 1) (-1)))
      = -2 ∧
    (affS [0, 1, 2] [0, 1, 2] ⟨3, 3, [[-5, 10, -1], [10, 2, -1], [-1, -1, 10]]⟩
        (-3) (-1) false false 3 3).1 = 7 ∧
    max ((affS [0, 1, 2] [0, 1, 2] ⟨3, 3, [[-5, 10, -1], [10, 2, -1], [-1, -1, 10]]⟩
          (-3) (-1) false false 2 2).1 +
        matScore ⟨3, 3, [[-5, 10, -1], [10, 2, -1], [-1, -1, 10]]⟩ 2 2)
      (max ((affS [0, 1, 2] [0, 1, 2] ⟨3, 3, [[-5, 10, -1], [10, 2, -1], [-1, -1, 10]]⟩
            (-3) (-1) false false 2 2).2.1 +
          matScore ⟨3, 3, [[-5, 10, -1], [10, 2, -1], [-1, -1, 10]]⟩ 2 2)
        ((affS [0, 1, 2] [0, 1, 2] ⟨3, 3, [[-5, 10, -1], [10, 2, -1], [-1, -1, 10]]⟩
            (-3) (-1) false false 2 2).2.2 +
          matScore ⟨3, 3, [[-5, 10, -1], [10, 2, -1], [-1, -1, 10]]⟩ 2 2))
      = 17 := by decide

/-- C3: the claim says a mismatch of either sequence's alphabet alone
raises `AlphabetMismatch`.  The code joins the two comparisons with `and`,
so a single-sided mismatch passes: here the matrix's first alphabet (0)
differs from the first sequence's alphabet (5) while the second matches,
and `align_ungapped` happily returns a score instead of failing. -/
theorem align_ungapped_single_mismatch_not_raised :
    align_ungapped ⟨5, [0]⟩ ⟨1, [0]⟩ ⟨0, 1, [[-4]]⟩ true =
      .ok (.score (-4)) := by decide

/-- C5: the claim says the common score of the returned alignments is the
maximum attainable score.  For sequences `[0]`/`[0]`, matrix `[[-5]]`,
general penalty −1, global mode with terminal penalties, `align_optimal`
returns two alignments of score −5, but the brute-force maximum over all
alignments is −2 (two gap columns) — the tie slip of the filler
(`trace, score = 6, from_diag`) propagates to the reported score. -/
theorem align_optimal_score_not_maximal :
    align_optimal ⟨1, [0]⟩ ⟨1, [0]⟩ ⟨1, 1, [[-5]]⟩ (.int (-1)) true false =
      .ok [⟨[⟨1, [0]⟩, ⟨1, [0]⟩], [(-1, 0), (0, -1)], -5⟩,
           ⟨[⟨1, [0]⟩, ⟨1, [0]⟩], [(0, -1), (-1, 0)], -5⟩] ∧
    maxIntList (bruteScores ⟨1, 1, [[-5]]⟩ (-1) [0] [0]) = -2 := by decide

/-- C9: the claim says affine penalties (g, g) reproduce the general-mode
score.  For sequences `[0,1]`/`[0,1]`, matrix `[[-1,2],[2,-1]]` (all
entries ≥ 2g), penalty −1, global mode with terminal penalties, general
mode returns score −2 (both alignments) while affine (−1, −1) returns
score 0 — the tie slip in the general filler drops the score of the
optimal double-gap alignment. -/
theorem affine_general_same_penalty_score_differs :
    (align_optimal ⟨2, [0, 1]⟩ ⟨2, [0, 1]⟩ ⟨2, 2, [[-1, 2], [2, -1]]⟩
        (.int (-1)) true false).map (fun l => l.map Alignment.score) =
      .ok [-2, -2] ∧
    (align_optimal ⟨2, [0, 1]⟩ ⟨2, [0, 1]⟩ ⟨2, 2, [[-1, 2], [2, -1]]⟩
        (.tuple (-1) (-1)) true false).map (fun l => l.map Alignment.score) =
      .ok [0, 0] := by decide

/-- C10: with `terminal_penalty = false` the gap candidate entering the
last row/column is taken without penalty, and this branch is not
conditioned on the mode, so it also applies with `local = true`: the
boundary gap candidate is `prev` itself, and concretely the local-mode
table for `[0]`/`[0,1]`, matrix `[[5,-5],[-5,5]]`, differs between the two
terminal settings at cell (1,2) (0 versus 5; cell (1,1) is 5 either way,
so the set of cells tied for the local maximum also differs), in the
general filler and in the `g1` state of the affine filler alike. -/
theorem terminal_suppression_ignores_local_mode :
    (∀ (prev g : Int) (iMax : Nat), gapCand false iMax iMax prev g = prev) ∧
    genS [0] [0, 1] ⟨2, 2, [[5, -5], [-5, 5]]⟩ (-10) true true 1 1 = 5 ∧
    genS [0] [0, 1] ⟨2, 2, [[5, -5], [-5, 5]]⟩ (-10) false true 1 1 = 5 ∧
    genS [0] [0, 1] ⟨2, 2, [[5, -5], [-5, 5]]⟩ (-10) true true 1 2 = 0 ∧
    genS [0] [0, 1] ⟨2, 2, [[5, -5], [-5, 5]]⟩ (-10) false true 1 2 = 5 ∧
    (affS [0] [0, 1] ⟨2, 2, [[5, -5], [-5, 5]]⟩ (-10) (-8) true true 1 2).2.1 = 0 ∧
    (affS [0] [0, 1] ⟨2, 2, [[5, -5], [-5, 5]]⟩ (-10) (-8) false true 1 2).2.1 = 5 :=
  ⟨fun prev g iMax => by simp [gapCand], by decide, by decide, by decide,
   by decide, by decide, by decide⟩

/-- C2 counterexample: the claim says any non-negative penalty value is
rejected with `InvalidGapPenalty`.  The source only inspects the Python
type of `gap_penalty` (`int` / `tuple` / otherwise); the value 0 is an
integer, so the call succeeds and returns an alignment. -/
theorem gap_penalty_zero_not_rejected :
    align_optimal ⟨1, [0]⟩ ⟨1, [0]⟩ ⟨1, 1, [[3]]⟩ (.int 0) true false =
      .ok [⟨[⟨1, [0]⟩, ⟨1, [0]⟩], [(0, 0)], 3⟩] := by decide

/-- C2 (amended): once the alphabet check has passed, `align_optimal`
fails with `InvalidGapPenalty` exactly when the penalty argument is
neither an integer nor a pair — the sign of the penalties is never
validated.  The check still happens before any table is built (the
function returns at once, touching no table). -/
theorem align_optimal_penalty_type_check (seq1 seq2 : Seq) (m : SubstMatrix)
    (gp : GapPenaltyArg) (term loc : Bool)
    (h1 : seq1.alphabet ≤ m.alph1) (h2 : seq2.alphabet ≤ m.alph2) :
    align_optimal seq1 seq2 m gp term loc = .error .invalidGapPenalty ↔
      gp = .other := by
  cases gp <;> simp [align_optimal, h1, h2]

/-- C2 witness: the amended theorem applied at a concrete input. -/
theorem align_optimal_penalty_type_check_witness :
    (⟨1, [0]⟩ : Seq).alphabet ≤ (⟨1, 1, [[3]]⟩ : SubstMatrix).alph1 ∧
    (⟨1, [0]⟩ : Seq).alphabet ≤ (⟨1, 1, [[3]]⟩ : SubstMatrix).alph2 ∧
    (align_optimal ⟨1, [0]⟩ ⟨1, [0]⟩ ⟨1, 1, [[3]]⟩ .other true false =
        .error .invalidGapPenalty ↔ GapPenaltyArg.other = .other) :=
  ⟨by decide, by decide,
   align_optimal_penalty_type_check ⟨1, [0]⟩ ⟨1, [0]⟩ ⟨1, 1, [[3]]⟩ .other
     true false (by decide) (by decide)⟩

/-- Evaluating the summation loop of `_add_scores` as a `Finset` sum. -/
theorem foldl_range_sum (f : Nat → Int) (n : Nat) :
    (List.range n).foldl (fun acc i => acc + f i) 0 =
      ∑ i ∈ Finset.range n, f i := by
  induction n with
  | zero => simp
  | succ n ih =>
    rw [List.range_succ, List.foldl_append, Finset.sum_range_succ, ih]
    simp

/-- `addScores` is the per-position sum of matrix scores. -/
theorem addScores_eq_sum (c1 c2 : List Nat) (m : SubstMatrix) :
    addScores c1 c2 m =
      ∑ i ∈ Finset.range c1.length,
        matScore m (c1.getD i 0) (c2.getD i 0) :=
  foldl_range_sum _ _

/-- C4: for equal-length sequences that pass the (conjunctive) alphabet
check, `align_ungapped` with `score_only` returns exactly
`∑ i, matrix[code1[i], code2[i]]`, and without `score_only` it returns an
`Alignment` carrying that same score and the identity trace
`[(0,0), (1,1), ...]`. -/
theorem align_ungapped_sum_and_identity_trace (seq1 seq2 : Seq)
    (m : SubstMatrix) (hlen : seq1.code.length = seq2.code.length)
    (halph : m.alph1 = seq1.alphabet ∨ m.alph2 = seq2.alphabet) :
    align_ungapped seq1 seq2 m true = .ok (.score
      (∑ i ∈ Finset.range seq1.code.length,
        matScore m (seq1.code.getD i 0) (seq2.code.getD i 0))) ∧
    align_ungapped seq1 seq2 m false = .ok (.alignment
      { seqs := [seq1, seq2]
        trace := (List.range seq1.code.length).map fun i =>
          ((i : Int), (i : Int))
        score := ∑ i ∈ Finset.range seq1.code.length,
          matScore m (seq1.code.getD i 0) (seq2.code.getD i 0) }) := by
  have hc : ¬(m.alph1 ≠ seq1.alphabet ∧ m.alph2 ≠ seq2.alphabet) := by
    rcases halph with h | h <;> simp [h]
  constructor <;>
    simp [align_ungapped, hlen, hc, addScores_eq_sum]

/-- C4 witness: the theorem applied at a concrete input
(`∑ = M[0,1] + M[1,0] = −4`). -/
theorem align_ungapped_sum_and_identity_trace_witness :
    (⟨1, [0, 1]⟩ : Seq).code.length = (⟨1, [1, 0]⟩ : Seq).code.length ∧
    ((⟨1, 1, [[1, -2], [-2, 1]]⟩ : SubstMatrix).alph1 =
        (⟨1, [0, 1]⟩ : Seq).alphabet ∨
      (⟨1, 1, [[1, -2], [-2, 1]]⟩ : SubstMatrix).alph2 =
        (⟨1, [1, 0]⟩ : Seq).alphabet) ∧
    (align_ungapped ⟨1, [0, 1]⟩ ⟨1, [1, 0]⟩ ⟨1, 1, [[1, -2], [-2, 1]]⟩ true =
        .ok (.score (∑ i ∈ Finset.range (⟨1, [0, 1]⟩ : Seq).code.length,
          matScore ⟨1, 1, [[1, -2], [-2, 1]]⟩
            ((⟨1, [0, 1]⟩ : Seq).code.getD i 0)
            ((⟨1, [1, 0]⟩ : Seq).code.getD i 0))) ∧
      align_ungapped ⟨1, [0, 1]⟩ ⟨1, [1, 0]⟩ ⟨1, 1, [[1, -2], [-2, 1]]⟩ false =
        .ok (.alignment
          { seqs := [⟨1, [0, 1]⟩, ⟨1, [1, 0]⟩]
            trace := (List.range (⟨1, [0, 1]⟩ : Seq).code.length).map fun i =>
              ((i : Int), (i : Int))
            score := ∑ i ∈ Finset.range (⟨1, [0, 1]⟩ : Seq).code.length,
              matScore ⟨1, 1, [[1, -2], [-2, 1]]⟩
                ((⟨1, [0, 1]⟩ : Seq).code.getD i 0)
                ((⟨1, [1, 0]⟩ : Seq).code.getD i 0) })) :=
  ⟨rfl, Or.inl rfl,
   align_ungapped_sum_and_identity_trace ⟨1, [0, 1]⟩ ⟨1, [1, 0]⟩
     ⟨1, 1, [[1, -2], [-2, 1]]⟩ rfl (Or.inl rfl)⟩

/-- A left fold by `min` is below its initial value. -/
theorem foldl_min_le_init (l : List Int) (a : Int) : l.foldl min a ≤ a := by
  induction l generalizing a with
  | nil => exact le_refl a
  | cons h t ih => exact le_trans (ih (min a h)) (min_le_left a h)

/-- A left fold by `min` is below every list element. -/
theorem foldl_min_le_mem (l : List Int) (a x : Int) (h : x ∈ l) :
    l.foldl min a ≤ x := by
  induction l generalizing a with
  | nil => cases h
  | cons hd t ih =>
    rcases List.mem_cons.mp h with rfl | hx
    · exact le_trans (foldl_min_le_init t (min a x)) (min_le_right a x)
    · exact ih _ hx

/-- A left fold by `max` is above its initial value. -/
theorem le_foldl_max_init (l : List Int) (a : Int) : a ≤ l.foldl max a := by
  induction l generalizing a with
  | nil => exact le_refl a
  | cons h t ih => exact le_trans (le_max_left a h) (ih (max a h))

/-- A left fold by `max` is above every list element. -/
theorem le_foldl_max_mem (l : List Int) (a x : Int) (h : x ∈ l) :
    x ≤ l.foldl max a := by
  induction l generalizing a with
  | nil => cases h
  | cons hd t ih =>
    rcases List.mem_cons.mp h with rfl | hx
    · exact le_trans (le_max_right a x) (le_foldl_max_init t (max a x))
    · exact ih _ hx

/-- `np.min` of the score table bounds every entry from below. -/
theorem matMin_le (s : List (List Int)) (x : Int) (h : x ∈ matEntries s) :
    matMin s ≤ x := by
  unfold matMin
  cases hE : matEntries s with
  | nil => rw [hE] at h; cases h
  | cons hd t =>
    rw [hE] at h
    rcases List.mem_cons.mp h with rfl | hx
    · exact foldl_min_le_init t x
    · exact foldl_min_le_mem t hd x hx

/-- `matMax` of the score table bounds every entry from above. -/
theorem le_matMax (s : List (List Int)) (x : Int) (h : x ∈ matEntries s) :
    x ≤ matMax s := by
  unfold matMax
  cases hE : matEntries s with
  | nil => rw [hE] at h; cases h
  | cons hd t =>
    rw [hE] at h
    rcases List.mem_cons.mp h with rfl | hx
    · exact le_foldl_max_init t x
    · exact le_foldl_max_mem t hd x hx

/-- C8 counterexample: for the (negative, hence "valid") penalties
−2³⁰/−2³⁰ and the score matrix `[[2³¹−1]]`, the sentinel plus the matrix
score leaves the signed 32-bit range: the claimed overflow-freedom does
not hold for every negative penalty pair. -/
theorem sentinel_plus_addend_overflows :
    ((-1073741824 : Int) < 0 ∧ (-1073741824 : Int) < 0) ∧
    ((2147483647 : Int) ∈ matEntries [[2147483647]]) ∧
    ¬(negInfVal (-1073741824) (-1073741824) [[2147483647]] + 2147483647 ≤
        2147483647) := by decide

/-- C8 (amended): for negative penalties, the sentinel plus any single
transition addend (gap-open, gap-extend, or a matrix score) stays within
the signed 32-bit range provided the gap/score magnitudes are jointly
bounded: `−2·go − 2·ge − min(min_score, 0) + max(max_score, 0) ≤ 2³² − 1`
(true for all realistic penalty and score magnitudes). -/
theorem sentinel_plus_addend_in_int32_range (go ge x : Int)
    (scores : List (List Int)) (hgo : go < 0) (hge : ge < 0)
    (hx : x = go ∨ x = ge ∨ x ∈ matEntries scores)
    (hbound : -2 * go - 2 * ge - min (matMin scores) 0 +
        max (matMax scores) 0 ≤ 4294967295) :
    -2147483648 ≤ negInfVal go ge scores + x ∧
      negInfVal go ge scores + x ≤ 2147483647 := by
  have hxlo : matMin scores ≤ x ∨ (x = go ∨ x = ge) := by
    rcases hx with h | h | h
    · exact Or.inr (Or.inl h)
    · exact Or.inr (Or.inr h)
    · exact Or.inl (matMin_le scores x h)
  have hxhi : x ≤ max (matMax scores) 0 ∨ (x = go ∨ x = ge) := by
    rcases hx with h | h | h
    · exact Or.inr (Or.inl h)
    · exact Or.inr (Or.inr h)
    · exact Or.inl (le_trans (le_matMax scores x h) (le_max_left _ _))
  have h0max : (0 : Int) ≤ max (matMax scores) 0 := le_max_right _ _
  simp only [negInfVal]
  split_ifs with hA
  · have hmin : min (matMin scores) 0 = matMin scores :=
      min_eq_left (le_of_lt hA)
    rw [hmin] at hbound
    omega
  · have hmin : min (matMin scores) 0 = 0 :=
      min_eq_right (le_of_not_lt hA)
    rw [hmin] at hbound
    omega

/-- C8 witness: the amended theorem applied at a concrete input. -/
theorem sentinel_plus_addend_in_int32_range_witness :
    ((-10 : Int) < 0) ∧ ((-10 : Int) < 0) ∧
    ((6 : Int) = -10 ∨ (6 : Int) = -10 ∨ (6 : Int) ∈ matEntries [[-4, 6]]) ∧
    (-2 * (-10 : Int) - 2 * (-10) - min (matMin [[-4, 6]]) 0 +
        max (matMax [[-4, 6]]) 0 ≤ 4294967295) ∧
    (-2147483648 ≤ negInfVal (-10) (-10) [[-4, 6]] + 6 ∧
      negInfVal (-10) (-10) [[-4, 6]] + 6 ≤ 2147483647) :=
  ⟨by decide, by decide, Or.inr (Or.inr (by decide)), by decide,
   sentinel_plus_addend_in_int32_range (-10) (-10) 6 [[-4, 6]] (by decide)
     (by decide) (Or.inr (Or.inr (by decide))) (by decide)⟩

/-- The score selected by `generalMax3` is always one of its candidates. -/
theorem generalMax3_snd_cases (d l t : Int) :
    (generalMax3 d l t).2 = d ∨ (generalMax3 d l t).2 = l ∨
      (generalMax3 d l t).2 = t := by
  unfold generalMax3
  split_ifs <;> simp

/-- The trace selected by `generalMax3` is one of the seven non-zero
3-bit masks. -/
theorem generalMax3_fst_cases (d l t : Int) :
    (generalMax3 d l t).1 = 1 ∨ (generalMax3 d l t).1 = 2 ∨
    (generalMax3 d l t).1 = 3 ∨ (generalMax3 d l t).1 = 4 ∨
    (generalMax3 d l t).1 = 5 ∨ (generalMax3 d l t).1 = 6 ∨
    (generalMax3 d l t).1 = 7 := by
  unfold generalMax3
  split_ifs <;> simp

/-- The `g1` selection really is the two-way maximum. -/
theorem g1Sel_snd (a b : Int) : (g1Sel a b).2 = max a b := by
  unfold g1Sel
  split_ifs with h1 h2
  · rw [max_eq_left h1.le]
  · rw [max_eq_right h2.le]
  · have hab : a = b := le_antisymm (not_lt.mp h1) (not_lt.mp h2)
    rw [hab, max_self]

/-- The `g2` selection really is the two-way maximum. -/
theorem g2Sel_snd (a b : Int) : (g2Sel a b).2 = max a b := by
  unfold g2Sel
  split_ifs with h1 h2
  · rw [max_eq_left h1.le]
  · rw [max_eq_right h2.le]
  · have hab : a = b := le_antisymm (not_lt.mp h1) (not_lt.mp h2)
    rw [← hab, max_self]

/-- The `g1` trace bits are 8, 16 or 24. -/
theorem g1Sel_fst_cases (a b : Int) :
    (g1Sel a b).1 = 8 ∨ (g1Sel a b).1 = 16 ∨ (g1Sel a b).1 = 24 := by
  unfold g1Sel
  split_ifs <;> simp

/-- The `g2` trace bits are 32, 64 or 96. -/
theorem g2Sel_fst_cases (a b : Int) :
    (g2Sel a b).1 = 32 ∨ (g2Sel a b).1 = 64 ∨ (g2Sel a b).1 = 96 := by
  unfold g2Sel
  split_ifs <;> simp

/-- Reading the three bit groups back out of the packed affine trace byte
after the local-mode clearing chain (`&= ~7`, `&= ~24`, `&= ~96`). -/
theorem packed_trace_groups (a b c : Nat) (pa pb pc : Prop)
    [Decidable pa] [Decidable pb] [Decidable pc]
    (ha : a = 1 ∨ a = 2 ∨ a = 3 ∨ a = 4 ∨ a = 5 ∨ a = 6 ∨ a = 7)
    (hb : b = 8 ∨ b = 16 ∨ b = 24) (hc : c = 32 ∨ c = 64 ∨ c = 96) :
    (let tr := a ||| b ||| c
     let tr1 := if pa then tr &&& 248 else tr
     let tr2 := if pb then tr1 &&& 231 else tr1
     let tr3 := if pc then tr2 &&& 159 else tr2
     tr3 &&& 7 = (if pa then 0 else a) ∧
     tr3 &&& 24 = (if pb then 0 else b) ∧
     tr3 &&& 96 = (if pc then 0 else c)) := by
  rcases ha with rfl | rfl | rfl | rfl | rfl | rfl | rfl <;>
    rcases hb with rfl | rfl | rfl <;>
    rcases hc with rfl | rfl | rfl <;>
    by_cases hpa : pa <;> by_cases hpb : pb <;> by_cases hpc : pc <;>
    simp only [hpa, hpb, hpc, if_true, if_false, eq_self_iff_true,
      if_pos, if_neg, not_false_iff] <;>
    decide

/-- The interior cells of `affT` as the packed/cleared trace byte. -/
theorem affT_cell (c1 c2 : List Nat) (m : SubstMatrix) (go ge : Int)
    (term loc : Bool) (i j : Nat) :
    affT c1 c2 m go ge term loc (i + 1) (j + 1) =
      (let dv := affS c1 c2 m go ge term loc i j
      let lv := affS c1 c2 m go ge term loc (i + 1) j
      let tv := affS c1 c2 m go ge term loc i (j + 1)
      let sim := matScore m (c1.getD i 0) (c2.getD j 0)
      let mSel := generalMax3 (dv.1 + sim) (dv.2.1 + sim) (dv.2.2 + sim)
      let g1a := if ¬term ∧ i + 1 = c1.length then (lv.1, lv.2.1)
                 else (lv.1 + go, lv.2.1 + ge)
      let g1s := g1Sel g1a.1 g1a.2
      let g2a := if ¬term ∧ j + 1 = c2.length then (tv.1, tv.2.2)
                 else (tv.1 + go, tv.2.2 + ge)
      let g2s := g2Sel g2a.1 g2a.2
      let tr := mSel.1 ||| g1s.1 ||| g2s.1
      if loc then
        let tr1 := if mSel.2 ≤ 0 then tr &&& 248 else tr
        let tr2 := if g1s.2 ≤ 0 then tr1 &&& 231 else tr1
        if g2s.2 ≤ 0 then tr2 &&& 159 else tr2
      else tr) := rfl

/-- C7: in local mode, every interior cell whose computed maximum is ≤ 0
stores score 0 with an empty trace bitmask — for the general filler the
whole cell, for the affine filler each of the three states independently
(its score component clamps to 0 and only its own bit group is cleared).
The accompanying equivalences state that a trace
group is empty exactly when its state clamped (the selected score was
≤ 0), which is precisely the stop condition `_follow_trace` tests, so
traceback terminates exactly at clamped cells. -/
theorem local_clamp_zeroes_score_and_trace (c1 c2 : List Nat)
    (m : SubstMatrix) (g go ge : Int) (term : Bool) (i j : Nat) :
    (let d := genS c1 c2 m g term true i j +
        matScore m (c1.getD i 0) (c2.getD j 0)
     let l := gapCand term (i + 1) c1.length
        (genS c1 c2 m g term true (i + 1) j) g
     let t := gapCand term (j + 1) c2.length
        (genS c1 c2 m g term true i (j + 1)) g
     (max d (max l t) ≤ 0 →
        genS c1 c2 m g term true (i + 1) (j + 1) = 0 ∧
        genT c1 c2 m g term true (i + 1) (j + 1) = 0) ∧
     (genT c1 c2 m g term true (i + 1) (j + 1) = 0 ↔
        (generalMax3 d l t).2 ≤ 0)) ∧
    (let dv := affS c1 c2 m go ge term true i j
     let lv := affS c1 c2 m go ge term true (i + 1) j
     let tv := affS c1 c2 m go ge term true i (j + 1)
     let sim := matScore m (c1.getD i 0) (c2.getD j 0)
     let mSel := generalMax3 (dv.1 + sim) (dv.2.1 + sim) (dv.2.2 + sim)
     let g1a := if ¬term ∧ i + 1 = c1.length then (lv.1, lv.2.1)
                else (lv.1 + go, lv.2.1 + ge)
     let g2a := if ¬term ∧ j + 1 = c2.length then (tv.1, tv.2.2)
                else (tv.1 + go, tv.2.2 + ge)
     (max (dv.1 + sim) (max (dv.2.1 + sim) (dv.2.2 + sim)) ≤ 0 →
        (affS c1 c2 m go ge term true (i + 1) (j + 1)).1 = 0 ∧
        affT c1 c2 m go ge term true (i + 1) (j + 1) &&& 7 = 0) ∧
     (affT c1 c2 m go ge term true (i + 1) (j + 1) &&& 7 = 0 ↔
        mSel.2 ≤ 0) ∧
     (max g1a.1 g1a.2 ≤ 0 →
        (affS c1 c2 m go ge term true (i + 1) (j + 1)).2.1 = 0 ∧
        affT c1 c2 m go ge term true (i + 1) (j + 1) &&& 24 = 0) ∧
     (affT c1 c2 m go ge term true (i + 1) (j + 1) &&& 24 = 0 ↔
        (g1Sel g1a.1 g1a.2).2 ≤ 0) ∧
     (max g2a.1 g2a.2 ≤ 0 →
        (affS c1 c2 m go ge term true (i + 1) (j + 1)).2.2 = 0 ∧
        affT c1 c2 m go ge term true (i + 1) (j + 1) &&& 96 = 0) ∧
     (affT c1 c2 m go ge term true (i + 1) (j + 1) &&& 96 = 0 ↔
        (g2Sel g2a.1 g2a.2).2 ≤ 0)) := by
  constructor
  · -- general filler
    set d := genS c1 c2 m g term true i j +
      matScore m (c1.getD i 0) (c2.getD j 0) with hd
    set l := gapCand term (i + 1) c1.length
      (genS c1 c2 m g term true (i + 1) j) g with hl
    set t := gapCand term (j + 1) c2.length
      (genS c1 c2 m g term true i (j + 1)) g with ht
    have hS : genS c1 c2 m g term true (i + 1) (j + 1) =
        (if (generalMax3 d l t).2 ≤ 0 then 0 else (generalMax3 d l t).2) := by
      rw [genS_cell]
      simp only [eq_self_iff_true, true_and]
    have hT : genT c1 c2 m g term true (i + 1) (j + 1) =
        (if (generalMax3 d l t).2 ≤ 0 then 0 else (generalMax3 d l t).1) := by
      show (if (true = true) ∧ (generalMax3 d l t).2 ≤ 0 then 0
        else (generalMax3 d l t).1) = _
      simp only [eq_self_iff_true, true_and]
    constructor
    · intro hmax
      rw [max_le_iff, max_le_iff] at hmax
      have hsc : (generalMax3 d l t).2 ≤ 0 := by
        rcases generalMax3_snd_cases d l t with h | h | h <;> rw [h] <;>
          [exact hmax.1; exact hmax.2.1; exact hmax.2.2]
      rw [hS, hT, if_pos hsc, if_pos hsc]
      exact ⟨rfl, rfl⟩
    · rw [hT]
      constructor
      · intro h0
        by_contra hpos
        rw [if_neg hpos] at h0
        rcases generalMax3_fst_cases d l t with h | h | h | h | h | h | h <;>
          rw [h] at h0 <;> cases h0
      · intro hsc
        rw [if_pos hsc]
  · -- affine filler
    set dv := affS c1 c2 m go ge term true i j with hdv
    set lv := affS c1 c2 m go ge term true (i + 1) j with hlv
    set tv := affS c1 c2 m go ge term true i (j + 1) with htv
    set sim := matScore m (c1.getD i 0) (c2.getD j 0) with hsim
    set g1a := if ¬term ∧ i + 1 = c1.length then (lv.1, lv.2.1)
               else (lv.1 + go, lv.2.1 + ge) with hg1a
    set g2a := if ¬term ∧ j + 1 = c2.length then (tv.1, tv.2.2)
               else (tv.1 + go, tv.2.2 + ge) with hg2a
    set mSel := generalMax3 (dv.1 + sim) (dv.2.1 + sim) (dv.2.2 + sim)
      with hmSel
    set g1s := g1Sel g1a.1 g1a.2 with hg1s
    set g2s := g2Sel g2a.1 g2a.2 with hg2s
    have hScell : affS c1 c2 m go ge term true (i + 1) (j + 1) =
        ((if mSel.2 ≤ 0 then 0 else mSel.2),
         (if g1s.2 ≤ 0 then 0 else g1s.2),
         (if g2s.2 ≤ 0 then 0 else g2s.2)) := by
      rw [affS_cell]
      simp only [← hdv, ← hlv, ← htv, ← hsim, ← hg1a, ← hg2a, ← hmSel,
        ← hg1s, ← hg2s, if_true]
    have hgroups := packed_trace_groups mSel.1 g1s.1 g2s.1
      (mSel.2 ≤ 0) (g1s.2 ≤ 0) (g2s.2 ≤ 0)
      (generalMax3_fst_cases _ _ _) (g1Sel_fst_cases _ _)
      (g2Sel_fst_cases _ _)
    have hTcell7 : affT c1 c2 m go ge term true (i + 1) (j + 1) &&& 7 =
        (if mSel.2 ≤ 0 then 0 else mSel.1) := by
      rw [affT_cell]
      simp only [← hdv, ← hlv, ← htv, ← hsim, ← hg1a, ← hg2a, ← hmSel,
        ← hg1s, ← hg2s, if_true]
      exact hgroups.1
    have hTcell24 : affT c1 c2 m go ge term true (i + 1) (j + 1) &&& 24 =
        (if g1s.2 ≤ 0 then 0 else g1s.1) := by
      rw [affT_cell]
      simp only [← hdv, ← hlv, ← htv, ← hsim, ← hg1a, ← hg2a, ← hmSel,
        ← hg1s, ← hg2s, if_true]
      exact hgroups.2.1
    have hTcell96 : affT c1 c2 m go ge term true (i + 1) (j + 1) &&& 96 =
        (if g2s.2 ≤ 0 then 0 else g2s.1) := by
      rw [affT_cell]
      simp only [← hdv, ← hlv, ← htv, ← hsim, ← hg1a, ← hg2a, ← hmSel,
        ← hg1s, ← hg2s, if_true]
      exact hgroups.2.2
    refine ⟨?_, ?_, ?_, ?_, ?_, ?_⟩
    · intro hmax
      rw [max_le_iff, max_le_iff] at hmax
      have hsc : mSel.2 ≤ 0 := by
        rcases generalMax3_snd_cases (dv.1 + sim) (dv.2.1 + sim)
            (dv.2.2 + sim) with h | h | h <;> rw [hmSel, h] <;>
          [exact hmax.1; exact hmax.2.1; exact hmax.2.2]
      rw [hScell, hTcell7, if_pos hsc, if_pos hsc]
      exact ⟨rfl, rfl⟩
    · rw [hTcell7]
      constructor
      · intro h0
        by_contra hpos
        rw [if_neg hpos] at h0
        rcases generalMax3_fst_cases (dv.1 + sim) (dv.2.1 + sim)
            (dv.2.2 + sim) with h | h | h | h | h | h | h <;>
          rw [hmSel, h] at h0 <;> cases h0
      · intro hsc
        rw [if_pos hsc]
    · intro hmax
      have hsc : g1s.2 ≤ 0 := by rw [hg1s, g1Sel_snd]; exact hmax
      rw [hScell, hTcell24, if_pos hsc, if_pos hsc]
      exact ⟨rfl, rfl⟩
    · rw [hTcell24]
      constructor
      · intro h0
        by_contra hpos
        rw [if_neg hpos] at h0
        rcases g1Sel_fst_cases g1a.1 g1a.2 with h | h | h <;>
          rw [hg1s, h] at h0 <;> cases h0
      · intro hsc
        rw [if_pos hsc]
    · intro hmax
      have hsc : g2s.2 ≤ 0 := by rw [hg2s, g2Sel_snd]; exact hmax
      rw [hScell, hTcell96, if_pos hsc, if_pos hsc]
      exact ⟨rfl, rfl⟩
    · rw [hTcell96]
      constructor
      · intro h0
        by_contra hpos
        rw [if_neg hpos] at h0
        rcases g2Sel_fst_cases g2a.1 g2a.2 with h | h | h <;>
          rw [hg2s, h] at h0 <;> cases h0
      · intro hsc
        rw [if_pos hsc]

/-- Membership in a conditional singleton. -/
theorem mem_cond_singleton {α : Type} {s x : α} {c : Prop} [Decidable c]
    (h : s ∈ (if c then [x] else [])) : s = x := by
  split_ifs at h
  · exact List.mem_singleton.mp h
  · cases h

/-- Every entry of `tbSteps` moves to a neighbour cell (left, top or
diagonal), never to the cell itself, and its state stays in the family of
the current one. -/
theorem tbSteps_shape (tt : Int → Int → Nat) (i j : Int) (st : Nat) :
    ∀ s ∈ tbSteps tt i j st,
      (s.1 = i ∨ s.1 = i - 1) ∧ (s.2.1 = j ∨ s.2.1 = j - 1) ∧
      ¬(s.1 = i ∧ s.2.1 = j) ∧
      (st = 0 → s.2.2 = 0) ∧ (st ≠ 0 → s.2.2 = 1 ∨ s.2.2 = 2 ∨ s.2.2 = 3) := by
  intro s hs
  unfold tbSteps at hs
  by_cases h0 : st = 0
  · rw [if_pos h0] at hs
    rcases List.mem_append.mp hs with h | h
    · rcases List.mem_append.mp h with h | h
      · rw [mem_cond_singleton h]; dsimp only; omega
      · rw [mem_cond_singleton h]; dsimp only; omega
    · rw [mem_cond_singleton h]; dsimp only; omega
  · rw [if_neg h0] at hs
    rcases List.mem_append.mp hs with h | h
    · rcases List.mem_append.mp h with h | h
      · rcases List.mem_append.mp h with h | h
        · rcases List.mem_append.mp h with h | h
          · rcases List.mem_append.mp h with h | h
            · rcases List.mem_append.mp h with h | h
              · rw [mem_cond_singleton h]; dsimp only; omega
              · rw [mem_cond_singleton h]; dsimp only; omega
            · rw [mem_cond_singleton h]; dsimp only; omega
          · rw [mem_cond_singleton h]; dsimp only; omega
        · rw [mem_cond_singleton h]; dsimp only; omega
      · rw [mem_cond_singleton h]; dsimp only; omega
    · rw [mem_cond_singleton h]; dsimp only; omega

/-- A general-mode boundary cell with mark 2 steps left, staying in the
row. -/
theorem tbSteps_mark2 (tt : Int → Int → Nat) (i j : Int)
    (h : tt i j = 2) : tbSteps tt i j 0 = [(i, j - 1, 0)] := by
  unfold tbSteps
  rw [if_pos rfl, h]
  rfl

/-- A general-mode boundary cell with mark 4 steps up, staying in the
column. -/
theorem tbSteps_mark4 (tt : Int → Int → Nat) (i j : Int)
    (h : tt i j = 4) : tbSteps tt i j 0 = [(i - 1, j, 0)] := by
  unfold tbSteps
  rw [if_pos rfl, h]
  rfl

/-- An affine boundary cell with mark 16, state g1, steps left. -/
theorem tbSteps_mark16 (tt : Int → Int → Nat) (i j : Int)
    (h : tt i j = 16) : tbSteps tt i j 2 = [(i, j - 1, 2)] := by
  unfold tbSteps
  rw [if_neg (by omega), h]
  rfl

/-- An affine boundary cell with mark 64, state g2, steps up. -/
theorem tbSteps_mark64 (tt : Int → Int → Nat) (i j : Int)
    (h : tt i j = 64) : tbSteps tt i j 3 = [(i - 1, j, 3)] := by
  unfold tbSteps
  rw [if_neg (by omega), h]
  rfl

/-- Unfolding `followTrace` at fuel 0. -/
theorem followTrace_zero (tt : Int → Int → Nat) (i j : Int) (st : Nat)
    (acc : List (Int × Int)) : followTrace tt 0 i j st acc = [acc] := rfl

/-- Unfolding `followTrace` at positive fuel. -/
theorem followTrace_succ (tt : Int → Int → Nat) (fuel : Nat) (i j : Int)
    (st : Nat) (acc : List (Int × Int)) :
    followTrace tt (fuel + 1) i j st acc =
      if tbStop tt i j st then [acc]
      else
        match tbSteps tt i j st with
        | [] => [acc ++ [(i - 1, j - 1)]]
        | s0 :: rest =>
          ((rest.map fun s =>
            followTrace tt fuel s.1 s.2.1 s.2.2
              (acc ++ [(i - 1, j - 1)])).flatten) ++
          followTrace tt fuel s0.1 s0.2.1 s0.2.2 (acc ++ [(i - 1, j - 1)]) :=
  rfl

/-- Under a well-formed table, all loop states keep stopping at cell
(0,0). -/
theorem tbStop_origin (affine : Bool) (tt : Int → Int → Nat)
    (hwf : TableWF affine tt) (st : Nat)
    (h1 : affine = false → st = 0)
    (h2 : affine = true → st = 1 ∨ st = 2 ∨ st = 3) :
    tbStop tt 0 0 st = true := by
  have h00 := hwf.1
  cases affine with
  | false =>
    rw [h1 rfl]
    unfold tbStop
    rw [if_pos rfl, h00]
    rfl
  | true =>
    rcases h2 rfl with rfl | rfl | rfl <;>
      · unfold tbStop
        rw [h00]
        rfl

/-- Under a well-formed table, the steps taken from a cell with
non-negative coordinates keep both coordinates non-negative (the walk
never leaves the table). -/
theorem tbSteps_nonneg (affine : Bool) (tt : Int → Int → Nat)
    (hwf : TableWF affine tt) (i j : Int) (st : Nat) (hi : 0 ≤ i)
    (hj : 0 ≤ j)
    (h1 : affine = false → st = 0)
    (h2 : affine = true → st = 1 ∨ st = 2 ∨ st = 3)
    (hstop : ¬tbStop tt i j st = true) :
    ∀ s ∈ tbSteps tt i j st, 0 ≤ s.1 ∧ 0 ≤ s.2.1 := by
  intro s hs
  have hshape := tbSteps_shape tt i j st s hs
  by_cases hi1 : 1 ≤ i
  · by_cases hj1 : 1 ≤ j
    · omega
    · have hj0 : j = 0 := by omega
      subst hj0
      rcases hwf.2.2.1 i with h | h
      · exfalso
        apply hstop
        cases affine with
        | false =>
          rw [h1 rfl]; unfold tbStop; rw [if_pos rfl, h]; rfl
        | true =>
          rcases h2 rfl with rfl | rfl | rfl <;>
            · unfold tbStop; rw [h]; rfl
      · cases affine with
        | false =>
          rw [h1 rfl] at hs
          rw [if_neg (by simp)] at h
          rw [tbSteps_mark4 tt i 0 h] at hs
          rw [List.mem_singleton.mp hs]
          dsimp only
          omega
        | true =>
          rw [if_pos rfl] at h
          rcases h2 rfl with rfl | rfl | rfl
          · exfalso
            apply hstop
            unfold tbStop
            rw [h]
            rfl
          · exfalso
            apply hstop
            unfold tbStop
            rw [h]
            rfl
          · rw [tbSteps_mark64 tt i 0 h] at hs
            rw [List.mem_singleton.mp hs]
            dsimp only
            omega
  · have hi0 : i = 0 := by omega
    subst hi0
    by_cases hj1 : 1 ≤ j
    · rcases hwf.2.1 j with h | h
      · exfalso
        apply hstop
        cases affine with
        | false =>
          rw [h1 rfl]; unfold tbStop; rw [if_pos rfl, h]; rfl
        | true =>
          rcases h2 rfl with rfl | rfl | rfl <;>
            · unfold tbStop; rw [h]; rfl
      · cases affine with
        | false =>
          rw [h1 rfl] at hs
          rw [if_neg (by simp)] at h
          rw [tbSteps_mark2 tt 0 j h] at hs
          rw [List.mem_singleton.mp hs]
          dsimp only
          omega
        | true =>
          rw [if_pos rfl] at h
          rcases h2 rfl with rfl | rfl | rfl
          · exfalso
            apply hstop
            unfold tbStop
            rw [h]
            rfl
          · rw [tbSteps_mark16 tt 0 j h] at hs
            rw [List.mem_singleton.mp hs]
            dsimp only
            omega
          · exfalso
            apply hstop
            unfold tbStop
            rw [h]
            rfl
    · have hj0 : j = 0 := by omega
      subst hj0
      exact absurd (tbStop_origin affine tt hwf st h1 h2) hstop

/-- Walk invariant of `_follow_trace`: under a well-formed table, every
emitted raw trace has entries with components ≥ −1, never (−1, −1), and
consecutive entries linked by `stepBack` (each component stays or moves
back by one, not both staying). -/
theorem followTrace_walk (affine : Bool) (tt : Int → Int → Nat)
    (hwf : TableWF affine tt) :
    ∀ (fuel : Nat) (i j : Int) (st : Nat) (acc : List (Int × Int)),
      0 ≤ i → 0 ≤ j →
      (affine = false → st = 0) →
      (affine = true → st = 1 ∨ st = 2 ∨ st = 3) →
      (∀ p ∈ acc, -1 ≤ p.1 ∧ -1 ≤ p.2 ∧ ¬(p.1 = -1 ∧ p.2 = -1)) →
      List.Chain' stepBack acc →
      (∀ q ∈ acc.getLast?, stepBack q (i - 1, j - 1)) →
      ∀ tr ∈ followTrace tt fuel i j st acc,
        (∀ p ∈ tr, -1 ≤ p.1 ∧ -1 ≤ p.2 ∧ ¬(p.1 = -1 ∧ p.2 = -1)) ∧
        List.Chain' stepBack tr := by
  intro fuel
  induction fuel with
  | zero =>
    intro i j st acc _ _ _ _ hbd hch _ tr htr
    rw [followTrace_zero] at htr
    rw [List.mem_singleton.mp htr]
    exact ⟨hbd, hch⟩
  | succ fuel ih =>
    intro i j st acc hi hj h1 h2 hbd hch hlast tr htr
    rw [followTrace_succ] at htr
    by_cases hstop : tbStop tt i j st = true
    · rw [if_pos hstop] at htr
      rw [List.mem_singleton.mp htr]
      exact ⟨hbd, hch⟩
    · rw [if_neg hstop] at htr
      have hij0 : ¬(i = 0 ∧ j = 0) := by
        rintro ⟨rfl, rfl⟩
        exact hstop (tbStop_origin affine tt hwf st h1 h2)
      have hbd2 : ∀ p ∈ acc ++ [(i - 1, j - 1)],
          -1 ≤ p.1 ∧ -1 ≤ p.2 ∧ ¬(p.1 = -1 ∧ p.2 = -1) := by
        intro p hp
        rcases List.mem_append.mp hp with hp | hp
        · exact hbd p hp
        · rw [List.mem_singleton.mp hp]
          dsimp only
          omega
      have hch2 : List.Chain' stepBack (acc ++ [(i - 1, j - 1)]) := by
        rw [List.chain'_append]
        refine ⟨hch, List.chain'_singleton _, ?_⟩
        intro x hx y hy
        simp only [List.head?_cons, Option.mem_def, Option.some.injEq] at hy
        rw [← hy]
        exact hlast x hx
      have hlast2 : (acc ++ [(i - 1, j - 1)]).getLast? =
          some (i - 1, j - 1) := List.getLast?_concat acc
      cases hsteps : tbSteps tt i j st with
      | nil =>
        rw [hsteps] at htr
        rw [List.mem_singleton.mp htr]
        exact ⟨hbd2, hch2⟩
      | cons s0 rest =>
        rw [hsteps] at htr
        have hnext : ∀ s ∈ tbSteps tt i j st,
            ∀ tr' ∈ followTrace tt fuel s.1 s.2.1 s.2.2
              (acc ++ [(i - 1, j - 1)]),
            (∀ p ∈ tr', -1 ≤ p.1 ∧ -1 ≤ p.2 ∧ ¬(p.1 = -1 ∧ p.2 = -1)) ∧
            List.Chain' stepBack tr' := by
          intro s hs
          have hshape := tbSteps_shape tt i j st s hs
          have hnn := tbSteps_nonneg affine tt hwf i j st hi hj h1 h2 hstop s hs
          refine ih s.1 s.2.1 s.2.2 (acc ++ [(i - 1, j - 1)]) hnn.1 hnn.2
            ?_ ?_ hbd2 hch2 ?_
          · intro ha
            rcases eq_or_ne st 0 with h | h
            · exact hshape.2.2.2.1 h
            · exact absurd (h1 ha) h
          · intro ha
            have hst : st ≠ 0 := by
              intro h0
              cases affine with
              | false => cases ha
              | true => rcases h2 rfl with h | h | h <;> omega
            rcases hshape.2.2.2.2 hst with h | h | h <;> omega
          · intro q hq
            rw [hlast2, Option.mem_def, Option.some.injEq] at hq
            rw [← hq]
            unfold stepBack
            dsimp only
            omega
        rcases List.mem_append.mp htr with hmem | hmem
        · rcases List.mem_flatten.mp hmem with ⟨ll, hll, htr'⟩
          rcases List.mem_map.mp hll with ⟨s, hs, rfl⟩
          exact hnext s (by rw [hsteps]; exact List.mem_cons_of_mem _ hs)
            tr htr'
        · exact hnext s0 (by rw [hsteps]; exact List.mem_cons_self _ _)
            tr hmem

/-- A list that is consecutive from `m` is a `+1` chain together with
`m`. -/
theorem consecFrom_chain_cons (m : Int) (l : List Int)
    (h : consecFrom m l) :
    List.Chain' (fun x y => y = x + 1) (m :: l) := by
  induction l generalizing m with
  | nil => exact List.chain'_singleton m
  | cons hd t ih =>
    rw [List.chain'_cons]
    exact ⟨h.1.symm ▸ rfl, ih hd h.2⟩

/-- A list that is consecutive from some `m` is itself a `+1` chain. -/
theorem consecFrom_chain (m : Int) (l : List Int) (h : consecFrom m l) :
    List.Chain' (fun x y => y = x + 1) l :=
  (consecFrom_chain_cons m l h).tail

/-- Core property of the gap replacement: if the raw (already flipped)
trace is a forward walk whose previous row was `(m1, m2)` and the `seen`
prefixes contain exactly values ≤ their maxima `m1`/`m2`, then the non-gap
entries of each output column are consecutive indices starting after the
maximum, and no output row is a double gap. -/
theorem gapFilterAux_props (l : List (Int × Int)) :
    ∀ (m1 m2 : Int) (seen1 seen2 : List Int),
      m1 ∈ seen1 → (∀ x ∈ seen1, x ≤ m1) → -1 ≤ m1 →
      m2 ∈ seen2 → (∀ x ∈ seen2, x ≤ m2) → -1 ≤ m2 →
      List.Chain' stepFwd ((m1, m2) :: l) →
      consecFrom m1
        (((gapFilterAux seen1 seen2 l).map Prod.fst).filter (· != -1)) ∧
      consecFrom m2
        (((gapFilterAux seen1 seen2 l).map Prod.snd).filter (· != -1)) ∧
      ∀ p ∈ gapFilterAux seen1 seen2 l, p.1 ≠ -1 ∨ p.2 ≠ -1 := by
  induction l with
  | nil =>
    intro m1 m2 seen1 seen2 _ _ _ _ _ _ _
    refine ⟨trivial, trivial, ?_⟩
    intro p hp
    cases hp
  | cons hd rest ih =>
    intro m1 m2 seen1 seen2 hm1 hle1 hlo1 hm2 hle2 hlo2 hch
    obtain ⟨a, b⟩ := hd
    have hstep : stepFwd (m1, m2) (a, b) :=
      (List.chain'_cons.mp hch).1
    have hch' : List.Chain' stepFwd ((a, b) :: rest) :=
      (List.chain'_cons.mp hch).2
    have ha : a = m1 ∨ a = m1 + 1 := by
      have := hstep.1
      dsimp only at this
      omega
    have hb : b = m2 ∨ b = m2 + 1 := by
      have := hstep.2.1
      dsimp only at this
      omega
    have hne : ¬(a = m1 ∧ b = m2) := by
      have := hstep.2.2
      dsimp only at this
      omega
    have hmem1 : a ∈ seen1 ↔ a = m1 := by
      constructor
      · intro h
        have := hle1 a h
        omega
      · intro h
        rw [h]
        exact hm1
    have hmem2 : b ∈ seen2 ↔ b = m2 := by
      constructor
      · intro h
        have := hle2 b h
        omega
      · intro h
        rw [h]
        exact hm2
    have hIH := ih a b (a :: seen1) (b :: seen2)
      (List.mem_cons_self a seen1)
      (by
        intro x hx
        rcases List.mem_cons.mp hx with rfl | hx
        · exact le_refl x
        · have := hle1 x hx
          omega)
      (by omega)
      (List.mem_cons_self b seen2)
      (by
        intro x hx
        rcases List.mem_cons.mp hx with rfl | hx
        · exact le_refl x
        · have := hle2 x hx
          omega)
      (by omega)
      hch'
    have hout : gapFilterAux seen1 seen2 ((a, b) :: rest) =
        ((if a ∈ seen1 then -1 else a), (if b ∈ seen2 then -1 else b)) ::
        gapFilterAux (a :: seen1) (b :: seen2) rest := rfl
    rw [hout]
    refine ⟨?_, ?_, ?_⟩
    · -- first components
      by_cases hA : a ∈ seen1
      · have haa : a = m1 := hmem1.mp hA
        rw [List.map_cons]
        dsimp only
        rw [if_pos hA]
        rw [List.filter_cons_of_neg (by simp)]
        rw [← haa]
        exact hIH.1
      · have haa : a = m1 + 1 := by
          rcases ha with h | h
          · exact absurd (hmem1.mpr h) hA
          · exact h
        rw [List.map_cons]
        dsimp only
        rw [if_neg hA]
        rw [List.filter_cons_of_pos (by simp; omega)]
        exact ⟨haa, hIH.1⟩
    · -- second components
      by_cases hB : b ∈ seen2
      · have hbb : b = m2 := hmem2.mp hB
        rw [List.map_cons]
        dsimp only
        rw [if_pos hB]
        rw [List.filter_cons_of_neg (by simp)]
        rw [← hbb]
        exact hIH.2.1
      · have hbb : b = m2 + 1 := by
          rcases hb with h | h
          · exact absurd (hmem2.mpr h) hB
          · exact h
        rw [List.map_cons]
        dsimp only
        rw [if_neg hB]
        rw [List.filter_cons_of_pos (by simp; omega)]
        exact ⟨hbb, hIH.2.1⟩
    · -- no double-gap rows
      intro p hp
      rcases List.mem_cons.mp hp with rfl | hp
      · dsimp only
        by_cases hA : a ∈ seen1
        · have haa : a = m1 := hmem1.mp hA
          have hbb : b = m2 + 1 := by
            rcases hb with h | h
            · exact absurd ⟨haa, h⟩ hne
            · exact h
          have hB : ¬b ∈ seen2 := by
            rw [hmem2]
            omega
          rw [if_pos hA, if_neg hB]
          right
          omega
        · rw [if_neg hA]
          left
          have haa : a = m1 + 1 := by
            rcases ha with h | h
            · exact absurd (hmem1.mpr h) hA
            · exact h
          omega
      · exact hIH.2.2 p hp

/-- The gap replacement of a forward walk satisfies the spec's trace
validity properties. -/
theorem traceProps_of_walk (tr : List (Int × Int))
    (hbd : ∀ p ∈ tr, -1 ≤ p.1 ∧ -1 ≤ p.2 ∧ ¬(p.1 = -1 ∧ p.2 = -1))
    (hch : List.Chain' stepFwd tr) :
    TraceProps (gapFilterAux [] [] tr) := by
  cases tr with
  | nil => exact ⟨trivial, trivial, by intro p hp; cases hp⟩
  | cons hd rest =>
    obtain ⟨a, b⟩ := hd
    have hbda := hbd (a, b) (List.mem_cons_self _ _)
    dsimp only at hbda
    have hout : gapFilterAux [] [] ((a, b) :: rest) =
        (a, b) :: gapFilterAux [a] [b] rest := by
      simp [gapFilterAux]
    have hprops := gapFilterAux_props rest a b [a] [b]
      (List.mem_singleton.mpr rfl)
      (by intro x hx; rw [List.mem_singleton.mp hx])
      (by omega)
      (List.mem_singleton.mpr rfl)
      (by intro x hx; rw [List.mem_singleton.mp hx])
      (by omega)
      hch
    rw [hout]
    refine ⟨?_, ?_, ?_⟩
    · rw [List.map_cons]
      by_cases hA : a = -1
      · rw [List.filter_cons_of_neg (by simp [hA])]
        exact consecFrom_chain a _ hprops.1
      · rw [List.filter_cons_of_pos (by simp [hA])]
        exact consecFrom_chain_cons a _ hprops.1
    · rw [List.map_cons]
      by_cases hB : b = -1
      · rw [List.filter_cons_of_neg (by simp [hB])]
        exact consecFrom_chain b _ hprops.2.1
      · rw [List.filter_cons_of_pos (by simp [hB])]
        exact consecFrom_chain_cons b _ hprops.2.1
    · intro p hp
      rcases List.mem_cons.mp hp with rfl | hp
      · dsimp only
        omega
      · exact hprops.2.2 p hp

/-- Flipping a backward walk yields a forward walk. -/
theorem chain_stepFwd_reverse (tr : List (Int × Int))
    (h : List.Chain' stepBack tr) :
    List.Chain' stepFwd tr.reverse := by
  rw [List.chain'_reverse]
  refine List.Chain'.imp ?_ h
  intro a b hab
  show stepFwd b a
  unfold stepBack at hab
  unfold stepFwd
  omega

/-- The interior cells of `genT` as the selected trace bitmask with the
local clamp. -/
theorem genT_cell (c1 c2 : List Nat) (m : SubstMatrix) (g : Int)
    (term loc : Bool) (i j : Nat) :
    genT c1 c2 m g term loc (i + 1) (j + 1) =
      (if loc ∧ (generalMax3
            (genS c1 c2 m g term loc i j +
              matScore m (c1.getD i 0) (c2.getD j 0))
            (gapCand term (i + 1) c1.length
              (genS c1 c2 m g term loc (i + 1) j) g)
            (gapCand term (j + 1) c2.length
              (genS c1 c2 m g term loc i (j + 1)) g)).2 ≤ 0 then 0
      else (generalMax3
            (genS c1 c2 m g term loc i j +
              matScore m (c1.getD i 0) (c2.getD j 0))
            (gapCand term (i + 1) c1.length
              (genS c1 c2 m g term loc (i + 1) j) g)
            (gapCand term (j + 1) c2.length
              (genS c1 c2 m g term loc i (j + 1)) g)).1) := rfl

/-- All general-mode trace bytes fit in 3 bits. -/
theorem genT_lt_eight (c1 c2 : List Nat) (m : SubstMatrix) (g : Int)
    (term loc : Bool) (i j : Nat) : genT c1 c2 m g term loc i j < 8 := by
  rcases i with _ | i <;> rcases j with _ | j
  · show (0 : Nat) < 8
    omega
  · show (if loc then 0 else 2) < 8
    split_ifs <;> omega
  · show (if loc then 0 else 4) < 8
    split_ifs <;> omega
  · rw [genT_cell]
    split_ifs
    · omega
    · rcases generalMax3_fst_cases (genS c1 c2 m g term loc i j +
          matScore m (c1.getD i 0) (c2.getD j 0))
        (gapCand term (i + 1) c1.length
          (genS c1 c2 m g term loc (i + 1) j) g)
        (gapCand term (j + 1) c2.length
          (genS c1 c2 m g term loc i (j + 1)) g) with
        h | h | h | h | h | h | h <;> rw [h] <;> omega

/-- The trace table handed to the traceback in general mode is
well-formed. -/
theorem genT_wf (c1 c2 : List Nat) (m : SubstMatrix) (g : Int)
    (term loc : Bool) :
    TableWF false (fun i j => if 0 ≤ i ∧ 0 ≤ j then
      genT c1 c2 m g term loc i.toNat j.toNat else 0) := by
  refine ⟨?_, ?_, ?_, ?_⟩
  · show (if (0 : Int) ≤ 0 ∧ (0 : Int) ≤ 0 then
      genT c1 c2 m g term loc (Int.toNat 0) (Int.toNat 0) else 0) = 0
    rw [if_pos ⟨le_refl 0, le_refl 0⟩]
    rfl
  · intro j
    show (if (0 : Int) ≤ 0 ∧ 0 ≤ j then
        genT c1 c2 m g term loc (Int.toNat 0) j.toNat else 0) = 0 ∨
      (if (0 : Int) ≤ 0 ∧ 0 ≤ j then
        genT c1 c2 m g term loc (Int.toNat 0) j.toNat else 0) =
        (if false = true then 16 else 2)
    by_cases hj : (0 : Int) ≤ j
    · rw [if_pos ⟨le_refl 0, hj⟩]
      cases hjt : j.toNat with
      | zero => exact Or.inl rfl
      | succ k =>
        cases loc with
        | false => exact Or.inr rfl
        | true => exact Or.inl rfl
    · rw [if_neg (by omega)]
      exact Or.inl rfl
  · intro i
    show (if (0 : Int) ≤ i ∧ (0 : Int) ≤ 0 then
        genT c1 c2 m g term loc i.toNat (Int.toNat 0) else 0) = 0 ∨
      (if (0 : Int) ≤ i ∧ (0 : Int) ≤ 0 then
        genT c1 c2 m g term loc i.toNat (Int.toNat 0) else 0) =
        (if false = true then 64 else 4)
    by_cases hi : (0 : Int) ≤ i
    · rw [if_pos ⟨hi, le_refl 0⟩]
      cases hit : i.toNat with
      | zero => exact Or.inl rfl
      | succ k =>
        cases loc with
        | false => exact Or.inr rfl
        | true => exact Or.inl rfl
    · rw [if_neg (by omega)]
      exact Or.inl rfl
  · intro _ i j
    show (if 0 ≤ i ∧ 0 ≤ j then
        genT c1 c2 m g term loc i.toNat j.toNat else 0) < 8
    split_ifs
    · exact genT_lt_eight c1 c2 m g term loc i.toNat j.toNat
    · omega

/-- The trace table handed to the traceback in affine mode is
well-formed. -/
theorem affT_wf (c1 c2 : List Nat) (m : SubstMatrix) (go ge : Int)
    (term loc : Bool) :
    TableWF true (fun i j => if 0 ≤ i ∧ 0 ≤ j then
      affT c1 c2 m go ge term loc i.toNat j.toNat else 0) := by
  refine ⟨?_, ?_, ?_, ?_⟩
  · show (if (0 : Int) ≤ 0 ∧ (0 : Int) ≤ 0 then
      affT c1 c2 m go ge term loc (Int.toNat 0) (Int.toNat 0) else 0) = 0
    rw [if_pos ⟨le_refl 0, le_refl 0⟩]
    rfl
  · intro j
    show (if (0 : Int) ≤ 0 ∧ 0 ≤ j then
        affT c1 c2 m go ge term loc (Int.toNat 0) j.toNat else 0) = 0 ∨
      (if (0 : Int) ≤ 0 ∧ 0 ≤ j then
        affT c1 c2 m go ge term loc (Int.toNat 0) j.toNat else 0) =
        (if true = true then 16 else 2)
    by_cases hj : (0 : Int) ≤ j
    · rw [if_pos ⟨le_refl 0, hj⟩]
      cases hjt : j.toNat with
      | zero => exact Or.inl rfl
      | succ k =>
        cases loc with
        | false => exact Or.inr rfl
        | true => exact Or.inl rfl
    · rw [if_neg (by omega)]
      exact Or.inl rfl
  · intro i
    show (if (0 : Int) ≤ i ∧ (0 : Int) ≤ 0 then
        affT c1 c2 m go ge term loc i.toNat (Int.toNat 0) else 0) = 0 ∨
      (if (0 : Int) ≤ i ∧ (0 : Int) ≤ 0 then
        affT c1 c2 m go ge term loc i.toNat (Int.toNat 0) else 0) =
        (if true = true then 64 else 4)
    by_cases hi : (0 : Int) ≤ i
    · rw [if_pos ⟨hi, le_refl 0⟩]
      cases hit : i.toNat with
      | zero => exact Or.inl rfl
      | succ k =>
        cases loc with
        | false => exact Or.inr rfl
        | true => exact Or.inl rfl
    · rw [if_neg (by omega)]
      exact Or.inl rfl
  · intro h
    cases h

/-- C6: every trace emitted by `align_optimal` (general or affine, global
or local), read forward, has both index components monotonically
increasing over its non-gap entries — each sequence index consumed at most
once and advancing by exactly one when consumed — and every row consumes
at least one index (no step leaves both indices fixed). -/
theorem align_optimal_traces_valid (seq1 seq2 : Seq) (m : SubstMatrix)
    (gp : GapPenaltyArg) (term loc : Bool) (als : List Alignment)
    (hok : align_optimal seq1 seq2 m gp term loc = .ok als) :
    ∀ al ∈ als, TraceProps al.trace := by
  intro al hal
  unfold align_optimal at hok
  by_cases halph : ¬(seq1.alphabet ≤ m.alph1) ∨ ¬(seq2.alphabet ≤ m.alph2)
  · rw [if_pos halph] at hok
    cases hok
  · rw [if_neg halph] at hok
    cases gp with
    | other => cases hok
    | int g =>
      dsimp only at hok
      injection hok with h
      subst h
      rcases List.mem_map.mp hal with ⟨tr, htrm, rfl⟩
      rcases List.mem_flatten.mp htrm with ⟨ll, hll, htr⟩
      rcases List.mem_map.mp hll with ⟨s, hs, rfl⟩
      have hst : s.2.2 = 0 := by
        split_ifs at hs
        · rcases List.mem_map.mp hs with ⟨p, _, rfl⟩
          rfl
        · rw [List.mem_singleton.mp hs]
      have hwalk := followTrace_walk false _
        (genT_wf seq1.code seq2.code m g term loc)
        (s.1 + s.2.1 + 1) (s.1 : Int) (s.2.1 : Int) s.2.2 []
        (Int.natCast_nonneg _) (Int.natCast_nonneg _)
        (fun _ => hst) (fun hcon => Bool.noConfusion hcon)
        (by intro p hp; cases hp) List.chain'_nil
        (by intro q hq; cases hq)
        tr htr
      exact traceProps_of_walk tr.reverse
        (by intro p hp; exact hwalk.1 p (List.mem_reverse.mp hp))
        (chain_stepFwd_reverse tr hwalk.2)
    | tuple go ge =>
      dsimp only at hok
      injection hok with h
      subst h
      rcases List.mem_map.mp hal with ⟨tr, htrm, rfl⟩
      rcases List.mem_flatten.mp htrm with ⟨ll, hll, htr⟩
      rcases List.mem_map.mp hll with ⟨s, hs, rfl⟩
      have hst : s.2.2 = 1 ∨ s.2.2 = 2 ∨ s.2.2 = 3 := by
        by_cases hloc : loc = true
        · rw [if_pos hloc] at hs
          simp only [List.mem_append, or_assoc] at hs
          rcases hs with h | h | h
          · rcases List.mem_map.mp h with ⟨p, _, rfl⟩
            exact Or.inl rfl
          · rcases List.mem_map.mp h with ⟨p, _, rfl⟩
            exact Or.inr (Or.inl rfl)
          · rcases List.mem_map.mp h with ⟨p, _, rfl⟩
            exact Or.inr (Or.inr rfl)
        · rw [if_neg hloc] at hs
          simp only [List.mem_append, or_assoc] at hs
          rcases hs with h | h | h
          · rw [mem_cond_singleton h]
            exact Or.inl rfl
          · rw [mem_cond_singleton h]
            exact Or.inr (Or.inl rfl)
          · rw [mem_cond_singleton h]
            exact Or.inr (Or.inr rfl)
      have hwalk := followTrace_walk true _
        (affT_wf seq1.code seq2.code m go ge term loc)
        (s.1 + s.2.1 + 1) (s.1 : Int) (s.2.1 : Int) s.2.2 []
        (Int.natCast_nonneg _) (Int.natCast_nonneg _)
        (fun hcon => Bool.noConfusion hcon) (fun _ => hst)
        (by intro p hp; cases hp) List.chain'_nil
        (by intro q hq; cases hq)
        tr htr
      exact traceProps_of_walk tr.reverse
        (by intro p hp; exact hwalk.1 p (List.mem_reverse.mp hp))
        (chain_stepFwd_reverse tr hwalk.2)

/-- C6 witness: the theorem applied to a concrete run of `align_optimal`
(global general alignment of `[0,1]` against `[0]`). -/
theorem align_optimal_traces_valid_witness :
    align_optimal ⟨2, [0, 1]⟩ ⟨2, [0]⟩ ⟨2, 2, [[1, -1], [-1, 1]]⟩
        (.int (-2)) true false =
      .ok [⟨[⟨2, [0, 1]⟩, ⟨2, [0]⟩], [(0, 0), (1, -1)], -1⟩] ∧
    TraceProps
      ((⟨[⟨2, [0, 1]⟩, ⟨2, [0]⟩], [(0, 0), (1, -1)], -1⟩ : Alignment).trace) :=
  ⟨by decide,
   align_optimal_traces_valid ⟨2, [0, 1]⟩ ⟨2, [0]⟩ ⟨2, 2, [[1, -1], [-1, 1]]⟩
     (.int (-2)) true false
     [⟨[⟨2, [0, 1]⟩, ⟨2, [0]⟩], [(0, 0), (1, -1)], -1⟩] (by decide)
     ⟨[⟨2, [0, 1]⟩, ⟨2, [0]⟩], [(0, 0), (1, -1)], -1⟩ (by decide)⟩

/-- C7 witness: the clamped concrete cell (1,1) for `[0]`/`[0]` with
matrix `[[-5]]` in local mode: every candidate is negative, the stored
score is 0 and the trace byte stays empty. -/
theorem local_clamp_zeroes_score_and_trace_witness :
    (max (genS [0] [0] ⟨1, 1, [[-5]]⟩ (-1) true true 0 0 +
        matScore ⟨1, 1, [[-5]]⟩ 0 0)
      (max (gapCand true 1 1 (genS [0] [0] ⟨1, 1, [[-5]]⟩ (-1) true true 1 0) (-1))
           (gapCand true 1 1 (genS [0] [0] ⟨1, 1, [[-5]]⟩ (-1) true true 0 1) (-1)))
      ≤ 0) ∧
    genS [0] [0] ⟨1, 1, [[-5]]⟩ (-1) true true 1 1 = 0 ∧
    genT [0] [0] ⟨1, 1, [[-5]]⟩ (-1) true true 1 1 = 0 :=
  ⟨by decide,
   (local_clamp_zeroes_score_and_trace [0] [0] ⟨1, 1, [[-5]]⟩ (-1) (-3) (-1)
     true 0 0).1.1 (by decide)⟩

end Biotite
